import Mathlib

/-!
Verification of the JLPT kanji-image text-layout engine.

Shallow embedding of the line-wrapping and compound-layout logic of
`generate_n2_kanji_images.py`.  Python strings are modelled as `List Char`;
pixel widths as `ℤ` (the measurer `draw.textbbox` returns integer bounding
boxes, so `bbox[2] - bbox[0]` is an integer).  The measurer is abstracted as
a function `m : List Char → ℤ`.  The single float comparison of the source,
`test_width <= max_width * 0.95`, is modelled by the exact rational
comparison `20 * test_width ≤ 19 * maxWidth`.  The mutable
`wrapped_lines.append` pattern of the source is modelled by returning the
list of appended lines.
-/

namespace KanjiGen

/-- Python `str.split()` splits on (ASCII) whitespace runs and drops empties;
this is the whitespace test it uses. -/
def pyIsSpace (c : Char) : Bool :=
  c = ' ' || c = '\t' || c = '\n' || c = '\r' || c = '\x0b' || c = '\x0c'

/-- Accumulator version of Python `str.split()`: `cur` holds the reversed
characters of the word being scanned. -/
def pySplitAux (cur : List Char) : List Char → List (List Char)
  | [] => if cur = [] then [] else [cur.reverse]
  | c :: rest =>
    if pyIsSpace c then
      (if cur = [] then [] else [cur.reverse]) ++ pySplitAux [] rest
    else
      pySplitAux (c :: cur) rest

/-- Python `meaning.split()` (line 165 / 368 of the source). -/
def pySplit (s : List Char) : List (List Char) :=
  pySplitAux [] s

/-- Python `" ".join(words)`. -/
def joinWords : List (List Char) → List Char
  | [] => []
  | [w] => w
  | w :: w2 :: ws => w ++ ' ' :: joinWords (w2 :: ws)

/-- One entry of `wrapped_compound_lines`: a dict
`{"kanji": ..., "reading": ..., "meaning": ...}` (source lines 183-189 etc.). -/
structure WrappedLine where
  kanji : List Char
  reading : List Char
  meaning : List Char
deriving DecidableEq

/-- One parsed compound (`{"kanji", "reading", "meaning"}`, source lines 143-149). -/
structure Compound where
  kanji : List Char
  reading : List Char
  meaning : List Char
deriving DecidableEq

/-- `_split_long_word` body (source lines 218-237): `cur` is `current_chars`;
returns the texts appended to `wrapped_lines`.  The test
`test_width <= max_width * 0.95` is modelled exactly as
`20 * test_width ≤ 19 * maxWidth`. -/
def splitLongWordAux (m : List Char → ℤ) (maxWidth : ℤ) (cur : List Char) :
    List Char → List (List Char)
  | [] => if cur = [] then [] else [cur]
  | c :: rest =>
    if 20 * m (cur ++ [c]) ≤ 19 * maxWidth then
      splitLongWordAux m maxWidth (cur ++ [c]) rest
    else
      (if cur = [] then [] else [cur]) ++ splitLongWordAux m maxWidth [c] rest

/-- `_split_long_word` (source lines 208-237): every produced line has empty
`kanji`/`reading` fields. -/
def split_long_word (m : List Char → ℤ) (maxWidth : ℤ) (longWord : List Char) :
    List WrappedLine :=
  (splitLongWordAux m maxWidth [] longWord).map (fun t => ⟨[], [], t⟩)

/-- `_split_meaning_text` loop (source lines 168-206): `cur` is
`current_line_words`. -/
def splitMeaningAux (m : List Char → ℤ) (maxWidth : ℤ) (cur : List (List Char)) :
    List (List Char) → List WrappedLine
  | [] => if cur = [] then [] else [⟨[], [], joinWords cur⟩]
  | w :: rest =>
    let test := if cur = [] then w else joinWords (cur ++ [w])
    if m test ≤ maxWidth then
      splitMeaningAux m maxWidth (cur ++ [w]) rest
    else
      (if cur = [] then [] else [⟨[], [], joinWords cur⟩]) ++
        (if m w ≤ maxWidth then
          splitMeaningAux m maxWidth [w] rest
        else
          split_long_word m maxWidth w ++ splitMeaningAux m maxWidth [] rest)

/-- `_split_meaning_text` (source lines 160-206). -/
def split_meaning_text (m : List Char → ℤ) (maxWidth : ℤ) (meaning : List Char) :
    List WrappedLine :=
  splitMeaningAux m maxWidth [] (pySplit meaning)

/-- The greedy first-line packing loop of the hybrid split
(source lines 372-384): returns `(first_line_words, remaining_words)`.
(Python's `remaining_words.remove(word)` always removes the head of
`remaining_words`, so the pair is a split of the word list.) -/
def packFirstLineAux (m : List Char → ℤ) (remainingWidth : ℤ)
    (acc : List (List Char)) : List (List Char) → List (List Char) × List (List Char)
  | [] => (acc, [])
  | w :: rest =>
    if m (joinWords (acc ++ [w])) ≤ remainingWidth then
      packFirstLineAux m remainingWidth (acc ++ [w]) rest
    else
      (acc, w :: rest)

/-- Per-compound packing decision (source lines 327-431 inside
`create_kanji_image`). -/
def layoutCompound (m : List Char → ℤ) (maxBoxWidth : ℤ) (c : Compound) :
    List WrappedLine :=
  let kanjiWidth := m c.kanji
  let readingWidth := m c.reading
  let meaningWidth := m c.meaning
  let totalWidth := kanjiWidth + 8 + readingWidth + 12 + meaningWidth
  if totalWidth ≤ maxBoxWidth then
    [⟨c.kanji, c.reading, c.meaning⟩]
  else
    let krWidth := kanjiWidth + 8 + readingWidth + 12
    let remainingWidth := maxBoxWidth - krWidth
    if krWidth < maxBoxWidth ∧ remainingWidth > 20 then
      let packed := packFirstLineAux m remainingWidth [] (pySplit c.meaning)
      if packed.1 ≠ [] then
        ⟨c.kanji, c.reading, joinWords packed.1⟩ ::
          (if packed.2 ≠ [] then
            split_meaning_text m maxBoxWidth (joinWords packed.2)
          else [])
      else
        ⟨c.kanji, c.reading, []⟩ :: split_meaning_text m maxBoxWidth c.meaning
    else
      ⟨c.kanji, c.reading, []⟩ :: split_meaning_text m maxBoxWidth c.meaning

/-- The whole `wrapped_compound_lines` accumulation over the compound list
(source lines 326-431). -/
def layoutCompounds (m : List Char → ℤ) (maxBoxWidth : ℤ) (cs : List Compound) :
    List WrappedLine :=
  (cs.map (layoutCompound m maxBoxWidth)).flatten

/-- Box-height computation (source lines 433-445), with
`canvasRemainingHeight = IMAGE_HEIGHT - box_y0`, `line_spacing = 30`,
`box_padding = 15` and a fixed 30px bottom margin.  Returns
`box_y1 - box_y0`. -/
def computeBoxHeight (lines : List WrappedLine) (canvasRemainingHeight : ℤ) : ℤ :=
  if lines ≠ [] then
    let maxAvailableHeight := canvasRemainingHeight - 30
    let idealContentHeight := (lines.length : ℤ) * 30
    let actualContentHeight := min idealContentHeight (maxAvailableHeight - 2 * 15)
    actualContentHeight + 2 * 15
  else
    2 * 15 + 30

/-- Which of the three colored fragments a draw call renders. -/
inductive FragKind
  | kanjiPart
  | readingPart
  | meaningPart
deriving DecidableEq

/-- One `draw.text` call of the compound-rendering loop. -/
structure DrawCall where
  x : ℤ
  text : List Char
  kind : FragKind
deriving DecidableEq

/-- The per-line rendering of the compound loop (source lines 461-499):
`current_x` starts at `right_x` (`x0`), an 8px gap follows a drawn kanji part
and a 12px gap follows a drawn reading part; empty parts are skipped. -/
def renderLine (m : List Char → ℤ) (x0 : ℤ) (L : WrappedLine) : List DrawCall :=
  let x1 := if L.kanji = [] then x0 else x0 + m L.kanji + 8
  let x2 := if L.reading = [] then x1 else x1 + m L.reading + 12
  (if L.kanji = [] then [] else [⟨x0, L.kanji, FragKind.kanjiPart⟩]) ++
    (if L.reading = [] then [] else [⟨x1, L.reading, FragKind.readingPart⟩]) ++
      (if L.meaning = [] then [] else [⟨x2, L.meaning, FragKind.meaningPart⟩])

/-- The compound-rendering loop (source lines 459-505), total form: the
cursor `compound_y` advances by `line_spacing = 30` per line and the loop
breaks once it passes `box_y1 - box_padding`. -/
def renderLines (m : List Char → ℤ) (x0 boxY1 : ℤ) :
    List WrappedLine → ℤ → List DrawCall
  | [], _ => []
  | L :: rest, y =>
    let calls := renderLine m x0 L
    if y + 30 > boxY1 - 15 then calls
    else calls ++ renderLines m x0 boxY1 rest (y + 30)

/-! ## Error-flow embedding

`draw.textbbox` can raise; the source wraps a `try/except` only around
`image.save` (lines 507-514), and the batch loop of `main`
(lines 591-603) calls `create_kanji_image` without any handler.  The
functions below re-express the layout pipeline with a fallible measurer
`m : List Char → Except Unit ℤ`; `Except.error` models a raised exception
propagating. -/

/-- A total measurer lifted into the fallible interface. -/
def pureM (mw : List Char → ℤ) : List Char → Except Unit ℤ :=
  fun w => Except.ok (mw w)

/-- `_split_long_word` body with a fallible measurer. -/
def splitLongWordAuxE (m : List Char → Except Unit ℤ) (maxWidth : ℤ)
    (cur : List Char) : List Char → Except Unit (List (List Char))
  | [] => Except.ok (if cur = [] then [] else [cur])
  | c :: rest =>
    match m (cur ++ [c]) with
    | Except.error e => Except.error e
    | Except.ok testWidth =>
      if 20 * testWidth ≤ 19 * maxWidth then
        splitLongWordAuxE m maxWidth (cur ++ [c]) rest
      else
        match splitLongWordAuxE m maxWidth [c] rest with
        | Except.error e => Except.error e
        | Except.ok more => Except.ok ((if cur = [] then [] else [cur]) ++ more)

/-- `_split_long_word` with a fallible measurer. -/
def split_long_wordE (m : List Char → Except Unit ℤ) (maxWidth : ℤ)
    (longWord : List Char) : Except Unit (List WrappedLine) :=
  match splitLongWordAuxE m maxWidth [] longWord with
  | Except.error e => Except.error e
  | Except.ok ts => Except.ok (ts.map (fun t => ⟨[], [], t⟩))

/-- `_split_meaning_text` loop with a fallible measurer (the word-alone
width of source line 193 is a second `textbbox` call). -/
def splitMeaningAuxE (m : List Char → Except Unit ℤ) (maxWidth : ℤ)
    (cur : List (List Char)) : List (List Char) → Except Unit (List WrappedLine)
  | [] => Except.ok (if cur = [] then [] else [⟨[], [], joinWords cur⟩])
  | w :: rest =>
    let test := if cur = [] then w else joinWords (cur ++ [w])
    match m test with
    | Except.error e => Except.error e
    | Except.ok width =>
      if width ≤ maxWidth then
        splitMeaningAuxE m maxWidth (cur ++ [w]) rest
      else
        match m w with
        | Except.error e => Except.error e
        | Except.ok wordWidth =>
          if wordWidth ≤ maxWidth then
            match splitMeaningAuxE m maxWidth [w] rest with
            | Except.error e => Except.error e
            | Except.ok more =>
              Except.ok ((if cur = [] then [] else [⟨[], [], joinWords cur⟩]) ++ more)
          else
            match split_long_wordE m maxWidth w with
            | Except.error e => Except.error e
            | Except.ok fb =>
              match splitMeaningAuxE m maxWidth [] rest with
              | Except.error e => Except.error e
              | Except.ok more =>
                Except.ok
                  ((if cur = [] then [] else [⟨[], [], joinWords cur⟩]) ++ (fb ++ more))

/-- `_split_meaning_text` with a fallible measurer. -/
def split_meaning_textE (m : List Char → Except Unit ℤ) (maxWidth : ℤ)
    (meaning : List Char) : Except Unit (List WrappedLine) :=
  splitMeaningAuxE m maxWidth [] (pySplit meaning)

/-- The greedy first-line packing loop with a fallible measurer. -/
def packFirstLineAuxE (m : List Char → Except Unit ℤ) (remainingWidth : ℤ)
    (acc : List (List Char)) :
    List (List Char) → Except Unit (List (List Char) × List (List Char))
  | [] => Except.ok (acc, [])
  | w :: rest =>
    match m (joinWords (acc ++ [w])) with
    | Except.error e => Except.error e
    | Except.ok testWidth =>
      if testWidth ≤ remainingWidth then
        packFirstLineAuxE m remainingWidth (acc ++ [w]) rest
      else
        Except.ok (acc, w :: rest)

/-- Per-compound packing decision with a fallible measurer (the three
`textbbox` calls of source lines 336-342 come first, in order). -/
def layoutCompoundE (m : List Char → Except Unit ℤ) (maxBoxWidth : ℤ)
    (c : Compound) : Except Unit (List WrappedLine) :=
  match m c.kanji with
  | Except.error e => Except.error e
  | Except.ok kanjiWidth =>
    match m c.reading with
    | Except.error e => Except.error e
    | Except.ok readingWidth =>
      match m c.meaning with
      | Except.error e => Except.error e
      | Except.ok meaningWidth =>
        let totalWidth := kanjiWidth + 8 + readingWidth + 12 + meaningWidth
        if totalWidth ≤ maxBoxWidth then
          Except.ok [⟨c.kanji, c.reading, c.meaning⟩]
        else
          let krWidth := kanjiWidth + 8 + readingWidth + 12
          let remainingWidth := maxBoxWidth - krWidth
          if krWidth < maxBoxWidth ∧ remainingWidth > 20 then
            match packFirstLineAuxE m remainingWidth [] (pySplit c.meaning) with
            | Except.error e => Except.error e
            | Except.ok packed =>
              if packed.1 ≠ [] then
                match
                  (if packed.2 ≠ [] then
                    split_meaning_textE m maxBoxWidth (joinWords packed.2)
                  else Except.ok []) with
                | Except.error e => Except.error e
                | Except.ok more =>
                  Except.ok (⟨c.kanji, c.reading, joinWords packed.1⟩ :: more)
              else
                match split_meaning_textE m maxBoxWidth c.meaning with
                | Except.error e => Except.error e
                | Except.ok more =>
                  Except.ok (⟨c.kanji, c.reading, []⟩ :: more)
          else
            match split_meaning_textE m maxBoxWidth c.meaning with
            | Except.error e => Except.error e
            | Except.ok more =>
              Except.ok (⟨c.kanji, c.reading, []⟩ :: more)

/-- The `wrapped_compound_lines` accumulation with a fallible measurer. -/
def layoutCompoundsE (m : List Char → Except Unit ℤ) (maxBoxWidth : ℤ) :
    List Compound → Except Unit (List WrappedLine)
  | [] => Except.ok []
  | c :: rest =>
    match layoutCompoundE m maxBoxWidth c with
    | Except.error e => Except.error e
    | Except.ok ls =>
      match layoutCompoundsE m maxBoxWidth rest with
      | Except.error e => Except.error e
      | Except.ok more => Except.ok (ls ++ more)

/-- Per-line rendering with a fallible measurer (the `textbbox` calls of
source lines 472 and 485 re-measure the drawn kanji and reading parts). -/
def renderLineE (m : List Char → Except Unit ℤ) (x0 : ℤ) (L : WrappedLine) :
    Except Unit (List DrawCall) :=
  match
    (if L.kanji = [] then Except.ok x0
     else
       match m L.kanji with
       | Except.error e => Except.error e
       | Except.ok w => Except.ok (x0 + w + 8)) with
  | Except.error e => Except.error e
  | Except.ok x1 =>
    match
      (if L.reading = [] then Except.ok x1
       else
         match m L.reading with
         | Except.error e => Except.error e
         | Except.ok w => Except.ok (x1 + w + 12)) with
    | Except.error e => Except.error e
    | Except.ok x2 =>
      Except.ok
        ((if L.kanji = [] then [] else [⟨x0, L.kanji, FragKind.kanjiPart⟩]) ++
          (if L.reading = [] then [] else [⟨x1, L.reading, FragKind.readingPart⟩]) ++
            (if L.meaning = [] then [] else [⟨x2, L.meaning, FragKind.meaningPart⟩]))

/-- The compound-rendering loop (source lines 459-505): the running cursor
`compound_y` advances by `line_spacing = 30` per line and the loop breaks
once it passes `box_y1 - box_padding`. -/
def renderLinesE (m : List Char → Except Unit ℤ) (x0 : ℤ) (boxY1 : ℤ) :
    List WrappedLine → ℤ → Except Unit (List DrawCall)
  | [], _ => Except.ok []
  | L :: rest, y =>
    match renderLineE m x0 L with
    | Except.error e => Except.error e
    | Except.ok calls =>
      if y + 30 > boxY1 - 15 then Except.ok calls
      else
        match renderLinesE m x0 boxY1 rest (y + 30) with
        | Except.error e => Except.error e
        | Except.ok more => Except.ok (calls ++ more)

/-- One parsed entry (result of `parse_csv_entry`, source lines 151-158). -/
structure Entry where
  kanji : List Char
  jis : List Char
  meaning : List Char
  hiraganaReadings : List (List Char)
  katakanaReadings : List (List Char)
  compounds : List Compound
deriving DecidableEq

/-- `create_kanji_image` (source lines 239-514), reduced to its data and
error flow: the invalid-entry early return (247-249), the optional JIS
measurement (274-279), the vertical cursor arithmetic fixing `box_y0`
(258-317), the compound layout, the box-height computation, the rendering
loop, and the `try/except` that guards only `image.save` (507-514).
`save` stands for the outcome of `image.save`. -/
def createKanjiImageE (m : List Char → Except Unit ℤ) (save : Except Unit Unit)
    (e : Entry) : Except Unit Bool :=
  if e.kanji = [] then Except.ok false
  else
    match
      (if e.jis = [] then Except.ok 0 else m e.jis : Except Unit ℤ) with
    | Except.error er => Except.error er
    | Except.ok _ =>
      let rightY1 : ℤ := 30 + 45 + 15
      let rightY2 : ℤ := if e.hiraganaReadings ≠ [] then rightY1 + 40 + 15 else rightY1
      let rightY3 : ℤ := if e.katakanaReadings ≠ [] then rightY2 + 40 + 15 else rightY2
      let boxY0 : ℤ := rightY3 + 15
      let maxBoxWidth : ℤ := (1260 - 350 - 50 - 20) - 2 * 15
      match layoutCompoundsE m maxBoxWidth e.compounds with
      | Except.error er => Except.error er
      | Except.ok lines =>
        let boxY1 := boxY0 + computeBoxHeight lines (520 - boxY0)
        match renderLinesE m 350 boxY1 lines (boxY0 + 15) with
        | Except.error er => Except.error er
        | Except.ok _ =>
          match save with
          | Except.ok _ => Except.ok true
          | Except.error _ => Except.ok false

/-- The batch loop of `main` (source lines 591-603): no handler around the
per-entry call. -/
def runBatchAuxE (m : List Char → Except Unit ℤ) (save : Except Unit Unit)
    (succ fail : ℕ) : List Entry → Except Unit (ℕ × ℕ)
  | [] => Except.ok (succ, fail)
  | e :: rest =>
    match createKanjiImageE m save e with
    | Except.error er => Except.error er
    | Except.ok ok =>
      if ok then runBatchAuxE m save (succ + 1) fail rest
      else runBatchAuxE m save succ (fail + 1) rest

/-- The batch loop started with zero counters. -/
def runBatchE (m : List Char → Except Unit ℤ) (save : Except Unit Unit)
    (entries : List Entry) : Except Unit (ℕ × ℕ) :=
  runBatchAuxE m save 0 0 entries

/-- A measurer that always raises (a broken font/measurement backend). -/
def mFail : List Char → Except Unit ℤ :=
  fun _ => Except.error ()

/-- A well-formed sample entry with one compound, used in concrete
error-flow statements. -/
def sampleEntry : Entry :=
  ⟨['k'], [], ['a', 'r', 'm'], [['u']], [], [⟨['k', 'w'], ['u', 'w'], ['a', 'r', 'm']⟩]⟩

/-- A concrete additive measurer used for witnesses and counterexamples:
per-character widths, summed. -/
def cw (c : Char) : ℤ :=
  if c = 'A' then 100 else 10

/-- Concrete measurer: the width of a text is the sum of its character
widths.  It is consistent (a function) and monotonic (widths are
nonnegative). -/
def mA (w : List Char) : ℤ :=
  (w.map cw).sum

/-! ## Basic facts about tokenization and joining -/

/-- Characters kept when spacing is ignored. -/
def keepChar (c : Char) : Bool :=
  !pyIsSpace c

/-- A word as produced by `str.split()`: nonempty and whitespace-free. -/
def goodWord (w : List Char) : Prop :=
  w ≠ [] ∧ ∀ c ∈ w, pyIsSpace c = false

theorem joinWords_cons (w : List Char) (ws : List (List Char)) (h : ws ≠ []) :
    joinWords (w :: ws) = w ++ ' ' :: joinWords ws := by
  cases ws with
  | nil => exact absurd rfl h
  | cons w2 ws2 => rfl

theorem joinWords_append (ws1 ws2 : List (List Char)) (h1 : ws1 ≠ [])
    (h2 : ws2 ≠ []) :
    joinWords (ws1 ++ ws2) = joinWords ws1 ++ ' ' :: joinWords ws2 := by
  induction ws1 with
  | nil => exact absurd rfl h1
  | cons w rest ih =>
    cases rest with
    | nil =>
      cases ws2 with
      | nil => exact absurd rfl h2
      | cons b bs => rfl
    | cons w2 rest2 =>
      rw [List.cons_append, joinWords_cons _ _ (by simp),
        joinWords_cons _ _ (by simp), ih (by simp)]
      simp

theorem joinWords_pref (ws1 ws2 : List (List Char)) (h1 : ws1 ≠ []) :
    joinWords ws1 <+: joinWords (ws1 ++ ws2) := by
  cases h2 : ws2 with
  | nil => simp
  | cons b bs =>
    rw [joinWords_append ws1 (b :: bs) h1 (by simp)]
    exact ⟨' ' :: joinWords (b :: bs), rfl⟩

theorem joinWords_filter (ws : List (List Char)) :
    (joinWords ws).filter keepChar = ws.flatten.filter keepChar := by
  induction ws with
  | nil => rfl
  | cons w rest ih =>
    cases rest with
    | nil => simp [joinWords]
    | cons w2 rest2 =>
      rw [joinWords_cons _ _ (by simp)]
      simp only [List.filter_append, List.flatten_cons, List.filter_cons]
      rw [ih]
      simp [keepChar, pyIsSpace, List.filter_append]

theorem joinWords_ne_nil (ws : List (List Char)) (h : ws ≠ [])
    (hw : ∀ w ∈ ws, w ≠ []) : joinWords ws ≠ [] := by
  cases ws with
  | nil => exact absurd rfl h
  | cons w rest =>
    cases rest with
    | nil => exact hw w (by simp)
    | cons w2 rest2 =>
      rw [joinWords_cons _ _ (by simp)]
      intro hcon
      exact hw w (by simp) (List.append_eq_nil.mp hcon).1

theorem pySplitAux_flatten (s : List Char) :
    ∀ cur : List Char,
      (pySplitAux cur s).flatten = cur.reverse ++ s.filter keepChar := by
  induction s with
  | nil =>
    intro cur
    by_cases h : cur = [] <;> simp [pySplitAux, h]
  | cons c rest ih =>
    intro cur
    by_cases hsp : pyIsSpace c
    · have hk : keepChar c = false := by simp [keepChar, hsp]
      by_cases h : cur = [] <;>
        simp [pySplitAux, hsp, h, ih, List.filter_cons, hk]
    · have hk : keepChar c = true := by simp [keepChar, hsp]
      simp [pySplitAux, hsp, ih, List.filter_cons, hk]

theorem pySplit_flatten (s : List Char) :
    (pySplit s).flatten = s.filter keepChar := by
  simpa using pySplitAux_flatten s []

theorem pySplitAux_good (s : List Char) :
    ∀ cur : List Char, (∀ c ∈ cur, pyIsSpace c = false) →
      ∀ w ∈ pySplitAux cur s, goodWord w := by
  induction s with
  | nil =>
    intro cur hcur w hw
    by_cases h : cur = []
    · simp [pySplitAux, h] at hw
    · simp [pySplitAux, h] at hw
      subst hw
      exact ⟨by simpa using h, by simpa using hcur⟩
  | cons c rest ih =>
    intro cur hcur w hw
    by_cases hsp : pyIsSpace c
    · rw [pySplitAux] at hw
      simp only [hsp, if_true] at hw
      rcases List.mem_append.mp hw with hin | hin
      · by_cases h : cur = []
        · simp [h] at hin
        · simp [h] at hin
          subst hin
          exact ⟨by simpa using h, by simpa using hcur⟩
      · exact ih [] (by simp) w hin
    · rw [pySplitAux] at hw
      simp only [hsp, if_false] at hw
      refine ih (c :: cur) ?_ w hw
      intro d hd
      rcases List.mem_cons.mp hd with h | h
      · subst h; simpa using hsp
      · exact hcur d h

theorem pySplit_good (s : List Char) : ∀ w ∈ pySplit s, goodWord w :=
  pySplitAux_good s [] (by simp)

/-! ## Coverage of the wrapping routines -/

theorem slw_flatten (m : List Char → ℤ) (maxWidth : ℤ) (w : List Char) :
    ∀ cur : List Char,
      (splitLongWordAux m maxWidth cur w).flatten = cur ++ w := by
  induction w with
  | nil =>
    intro cur
    by_cases h : cur = [] <;> simp [splitLongWordAux, h]
  | cons c rest ih =>
    intro cur
    by_cases hfit : 20 * m (cur ++ [c]) ≤ 19 * maxWidth
    · simp [splitLongWordAux, hfit, ih]
    · by_cases h : cur = [] <;> simp [splitLongWordAux, hfit, h, ih]

theorem slw_meanings (m : List Char → ℤ) (maxWidth : ℤ) (w : List Char) :
    ((split_long_word m maxWidth w).map WrappedLine.meaning).flatten = w := by
  rw [split_long_word, List.map_map]
  have h2 : (WrappedLine.meaning ∘ fun t : List Char => (⟨[], [], t⟩ : WrappedLine)) = id :=
    rfl
  rw [h2, List.map_id]
  simpa using slw_flatten m maxWidth w []

/-- Unfolding equation for the cons case of `splitMeaningAux`. -/
theorem splitMeaningAux_cons (m : List Char → ℤ) (maxWidth : ℤ)
    (cur : List (List Char)) (w : List Char) (rest : List (List Char)) :
    splitMeaningAux m maxWidth cur (w :: rest) =
      if m (if cur = [] then w else joinWords (cur ++ [w])) ≤ maxWidth then
        splitMeaningAux m maxWidth (cur ++ [w]) rest
      else
        (if cur = [] then [] else [⟨[], [], joinWords cur⟩]) ++
          (if m w ≤ maxWidth then
            splitMeaningAux m maxWidth [w] rest
          else
            split_long_word m maxWidth w ++ splitMeaningAux m maxWidth [] rest) :=
  rfl

/-- The flushed accumulator line contributes exactly the accumulated words
(filtered of spacing). -/
theorem flushFilter (cur : List (List Char)) :
    (((if cur = [] then ([] : List WrappedLine)
       else [⟨[], [], joinWords cur⟩]).map WrappedLine.meaning).flatten).filter
        keepChar
      = cur.flatten.filter keepChar := by
  by_cases h : cur = [] <;> simp [h, joinWords_filter]

theorem smAux_cover (m : List Char → ℤ) (maxWidth : ℤ) (ws : List (List Char)) :
    ∀ cur : List (List Char),
      (((splitMeaningAux m maxWidth cur ws).map WrappedLine.meaning).flatten).filter
          keepChar
        = (cur.flatten ++ ws.flatten).filter keepChar := by
  induction ws with
  | nil =>
    intro cur
    by_cases h : cur = []
    · simp [splitMeaningAux, h]
    · simp [splitMeaningAux, h, joinWords_filter]
  | cons w rest ih =>
    intro cur
    by_cases hfit :
        m (if cur = [] then w else joinWords (cur ++ [w])) ≤ maxWidth
    · rw [splitMeaningAux_cons, if_pos hfit, ih (cur ++ [w])]
      simp [List.filter_append]
    · by_cases hw : m w ≤ maxWidth
      · rw [splitMeaningAux_cons, if_neg hfit, if_pos hw]
        simp only [List.map_append, List.flatten_append, List.filter_append]
        rw [flushFilter cur, ih [w]]
        simp [List.filter_append]
      · rw [splitMeaningAux_cons, if_neg hfit, if_neg hw]
        simp only [List.map_append, List.flatten_append, List.filter_append]
        rw [flushFilter cur, ih [], slw_meanings]
        simp [List.filter_append]

/-- Claim C1 (amended form): ignoring whitespace on both sides, the
concatenated meaning texts of the wrapped lines reproduce the input: every
non-whitespace input character appears in exactly one output line, in
original order. -/
theorem C1_coverage (m : List Char → ℤ) (maxWidth : ℤ) (s : List Char) :
    (((split_meaning_text m maxWidth s).map WrappedLine.meaning).flatten).filter
        keepChar
      = s.filter keepChar := by
  rw [split_meaning_text, smAux_cover m maxWidth (pySplit s) []]
  simp only [List.flatten_nil, List.nil_append]
  rw [pySplit_flatten, List.filter_filter]
  simp

/-- Claim C1, as stated, is false: an input consisting of a single space
produces no output lines at all, so that input character is lost (whitespace
is not preserved by the wrapping routines). -/
theorem C1_cex :
    ((split_meaning_text mA 100 [' ']).map WrappedLine.meaning).flatten = [] ∧
      ([' '] : List Char) ≠ [] :=
  ⟨by decide, by decide⟩

/-! ## Width bounds and line shapes -/

/-- Unfolding equation for the cons case of `splitLongWordAux`. -/
theorem splitLongWordAux_cons (m : List Char → ℤ) (maxWidth : ℤ) (cur : List Char)
    (c : Char) (rest : List Char) :
    splitLongWordAux m maxWidth cur (c :: rest) =
      if 20 * m (cur ++ [c]) ≤ 19 * maxWidth then
        splitLongWordAux m maxWidth (cur ++ [c]) rest
      else
        (if cur = [] then [] else [cur]) ++ splitLongWordAux m maxWidth [c] rest :=
  rfl

/-- Every chunk emitted by the character fallback is nonempty, and either
fits the 0.95 safety margin or is a single character. -/
theorem slw_fit (m : List Char → ℤ) (maxWidth : ℤ) (w : List Char) :
    ∀ cur : List Char,
      (cur = [] ∨ 20 * m cur ≤ 19 * maxWidth ∨ ∃ c, cur = [c]) →
      ∀ t ∈ splitLongWordAux m maxWidth cur w,
        t ≠ [] ∧ (20 * m t ≤ 19 * maxWidth ∨ ∃ c, t = [c]) := by
  induction w with
  | nil =>
    intro cur hcur t ht
    by_cases h : cur = []
    · simp [splitLongWordAux, h] at ht
    · simp [splitLongWordAux, h] at ht
      subst ht
      refine ⟨h, ?_⟩
      rcases hcur with h0 | h0 | h0
      · exact absurd h0 h
      · exact Or.inl h0
      · exact Or.inr h0
  | cons c rest ih =>
    intro cur hcur t ht
    by_cases hfit : 20 * m (cur ++ [c]) ≤ 19 * maxWidth
    · rw [splitLongWordAux_cons, if_pos hfit] at ht
      exact ih (cur ++ [c]) (Or.inr (Or.inl hfit)) t ht
    · rw [splitLongWordAux_cons, if_neg hfit] at ht
      rcases List.mem_append.mp ht with hin | hin
      · by_cases h : cur = []
        · simp [h] at hin
        · simp [h] at hin
          subst hin
          refine ⟨h, ?_⟩
          rcases hcur with h0 | h0 | h0
          · exact absurd h0 h
          · exact Or.inl h0
          · exact Or.inr h0
      · exact ih [c] (Or.inr (Or.inr ⟨c, rfl⟩)) t hin

/-- Characters of fallback chunks come from the accumulator or the word. -/
theorem slw_chars (m : List Char → ℤ) (maxWidth : ℤ) (w : List Char) :
    ∀ cur : List Char, ∀ t ∈ splitLongWordAux m maxWidth cur w,
      ∀ c ∈ t, c ∈ cur ∨ c ∈ w := by
  induction w with
  | nil =>
    intro cur t ht c hc
    by_cases h : cur = []
    · simp [splitLongWordAux, h] at ht
    · simp [splitLongWordAux, h] at ht
      subst ht
      exact Or.inl hc
  | cons c0 rest ih =>
    intro cur t ht c hc
    by_cases hfit : 20 * m (cur ++ [c0]) ≤ 19 * maxWidth
    · rw [splitLongWordAux_cons, if_pos hfit] at ht
      rcases ih (cur ++ [c0]) t ht c hc with hin | hin
      · rcases List.mem_append.mp hin with h1 | h1
        · exact Or.inl h1
        · simp at h1
          exact Or.inr (by simp [h1])
      · exact Or.inr (by simp [hin])
    · rw [splitLongWordAux_cons, if_neg hfit] at ht
      rcases List.mem_append.mp ht with hin | hin
      · by_cases h : cur = []
        · simp [h] at hin
        · simp [h] at hin
          subst hin
          exact Or.inl hc
      · rcases ih [c0] t hin c hc with h1 | h1
        · simp at h1
          exact Or.inr (by simp [h1])
        · exact Or.inr (by simp [h1])

/-- Shape of a word-level line: a nonempty join of split words that fits. -/
def wordLine (m : List Char → ℤ) (maxWidth : ℤ) (t : List Char) : Prop :=
  ∃ ws, ws ≠ [] ∧ (∀ w ∈ ws, goodWord w) ∧ t = joinWords ws ∧ m t ≤ maxWidth

/-- Shape of a character-fallback line: nonempty, whitespace-free, and
within the 0.95 margin unless it is a single character. -/
def fbLine (m : List Char → ℤ) (maxWidth : ℤ) (t : List Char) : Prop :=
  goodWord t ∧ (20 * m t ≤ 19 * maxWidth ∨ ∃ c, t = [c])

/-- Every line of `_split_meaning_text` has empty kanji/reading fields and a
meaning text of one of the two shapes. -/
def lineOK (m : List Char → ℤ) (maxWidth : ℤ) (L : WrappedLine) : Prop :=
  L.kanji = [] ∧ L.reading = [] ∧
    (wordLine m maxWidth L.meaning ∨ fbLine m maxWidth L.meaning)

/-- The tested text equals the join of the extended accumulator. -/
theorem test_eq (cur : List (List Char)) (w : List Char) :
    (if cur = [] then w else joinWords (cur ++ [w])) = joinWords (cur ++ [w]) := by
  by_cases h : cur = [] <;> simp [h, joinWords]

theorem smAux_mem (m : List Char → ℤ) (maxWidth : ℤ) (ws : List (List Char)) :
    ∀ cur : List (List Char),
      (∀ w ∈ ws, goodWord w) → (∀ w ∈ cur, goodWord w) →
      (cur ≠ [] → m (joinWords cur) ≤ maxWidth) →
      ∀ L ∈ splitMeaningAux m maxWidth cur ws, lineOK m maxWidth L := by
  induction ws with
  | nil =>
    intro cur _ hcur hinv L hL
    by_cases h : cur = []
    · simp [splitMeaningAux, h] at hL
    · simp [splitMeaningAux, h] at hL
      subst hL
      exact ⟨rfl, rfl, Or.inl ⟨cur, h, hcur, rfl, hinv h⟩⟩
  | cons w rest ih =>
    intro cur hws hcur hinv L hL
    have hwsr : ∀ u ∈ rest, goodWord u := fun u hu => hws u (by simp [hu])
    have hwgood : goodWord w := hws w (by simp)
    by_cases hfit :
        m (if cur = [] then w else joinWords (cur ++ [w])) ≤ maxWidth
    · rw [splitMeaningAux_cons, if_pos hfit] at hL
      refine ih (cur ++ [w]) hwsr ?_ ?_ L hL
      · intro u hu
        rcases List.mem_append.mp hu with h1 | h1
        · exact hcur u h1
        · simp at h1; subst h1; exact hwgood
      · intro _
        rw [← test_eq cur w]
        exact hfit
    · by_cases hw : m w ≤ maxWidth
      · rw [splitMeaningAux_cons, if_neg hfit, if_pos hw] at hL
        rcases List.mem_append.mp hL with hin | hin
        · by_cases h : cur = []
          · simp [h] at hin
          · simp [h] at hin
            subst hin
            exact ⟨rfl, rfl, Or.inl ⟨cur, h, hcur, rfl, hinv h⟩⟩
        · refine ih [w] hwsr ?_ ?_ L hin
          · intro u hu; simp at hu; subst hu; exact hwgood
          · intro _
            simpa [joinWords] using hw
      · rw [splitMeaningAux_cons, if_neg hfit, if_neg hw] at hL
        rcases List.mem_append.mp hL with hin | hin
        · by_cases h : cur = []
          · simp [h] at hin
          · simp [h] at hin
            subst hin
            exact ⟨rfl, rfl, Or.inl ⟨cur, h, hcur, rfl, hinv h⟩⟩
        · rcases List.mem_append.mp hin with hin2 | hin2
          · rcases List.mem_map.mp hin2 with ⟨t, ht, rfl⟩
            refine ⟨rfl, rfl, Or.inr ⟨⟨?_, ?_⟩, ?_⟩⟩
            · exact (slw_fit m maxWidth w [] (Or.inl rfl) t ht).1
            · intro c hc
              rcases slw_chars m maxWidth w [] t ht c hc with h1 | h1
              · simp at h1
              · exact hwgood.2 c h1
            · exact (slw_fit m maxWidth w [] (Or.inl rfl) t ht).2
          · exact ih [] hwsr (by simp) (by simp) L hin2

/-- All lines of `_split_meaning_text` satisfy `lineOK`. -/
theorem sm_lineOK (m : List Char → ℤ) (maxWidth : ℤ) (s : List Char) :
    ∀ L ∈ split_meaning_text m maxWidth s, lineOK m maxWidth L :=
  smAux_mem m maxWidth (pySplit s) [] (pySplit_good s) (by simp) (by simp)

/-! ## Concrete measurer facts -/

theorem mA_append (a b : List Char) : mA (a ++ b) = mA a + mA b := by
  simp [mA]

theorem cw_nonneg (c : Char) : 0 ≤ cw c := by
  unfold cw
  split <;> norm_num

theorem mA_nonneg (w : List Char) : 0 ≤ mA w := by
  induction w with
  | nil => simp [mA]
  | cons c rest ih =>
    have := cw_nonneg c
    simp only [mA, List.map_cons, List.sum_cons] at *
    omega

theorem mA_prefix_mono : ∀ l1 l2 : List Char, l1 <+: l2 → mA l1 ≤ mA l2 := by
  rintro l1 l2 ⟨t, rfl⟩
  have := mA_nonneg t
  rw [mA_append]
  omega

theorem mA_mid (x : List Char) (c : Char) (y : List Char) :
    mA [c] ≤ mA (x ++ c :: y) := by
  have hx := mA_nonneg x
  have hy := mA_nonneg y
  have h1 : mA (x ++ c :: y) = mA x + (cw c + mA y) := by
    rw [mA_append]
    simp [mA]
  have h2 : mA [c] = cw c := by simp [mA]
  omega

/-- Claim C2, as stated, is false: with a consistent, monotonic measurer a
single character whose width alone exceeds the margin can be forced onto its
own line in a non-final position; here the first fallback line `['A']` of
`split_long_word mA 20 "Ab"` measures 100 > 19 = 0.95 × 20. -/
theorem C2_cex :
    (∀ l1 l2 : List Char, l1 <+: l2 → mA l1 ≤ mA l2) ∧
      ¬ (∀ L ∈ (split_long_word mA 20 ['A', 'b']).dropLast,
          20 * mA L.meaning ≤ 19 * 20) := by
  refine ⟨mA_prefix_mono, ?_⟩
  decide

/-- Claim C2 (amended): word-level lines are within `maxWidth` except
single-character lines; character-fallback lines are within
`0.95 × maxWidth` except single-character lines, which may occur anywhere in
the output, not only at the end. -/
theorem C2_width_bounds (m : List Char → ℤ) (maxWidth : ℤ) (s w : List Char)
    (h0 : 0 ≤ maxWidth) :
    (∀ L ∈ split_meaning_text m maxWidth s,
        m L.meaning ≤ maxWidth ∨ ∃ c, L.meaning = [c]) ∧
      (∀ L ∈ split_long_word m maxWidth w,
        20 * m L.meaning ≤ 19 * maxWidth ∨ ∃ c, L.meaning = [c]) := by
  constructor
  · intro L hL
    rcases (sm_lineOK m maxWidth s L hL).2.2 with hwl | hfb
    · rcases hwl with ⟨ws2, _, _, _, hb⟩
      exact Or.inl hb
    · rcases hfb.2 with hb | hs
      · refine Or.inl ?_
        omega
      · exact Or.inr hs
  · intro L hL
    rcases List.mem_map.mp hL with ⟨t, ht, rfl⟩
    exact (slw_fit m maxWidth w [] (Or.inl rfl) t ht).2

/-- Witness: the amended C2 bound at a concrete measurer and inputs. -/
theorem C2_width_bounds_w :
    (∀ L ∈ split_meaning_text mA 20 ['a', 'b', ' ', 'c'],
        mA L.meaning ≤ 20 ∨ ∃ c, L.meaning = [c]) ∧
      (∀ L ∈ split_long_word mA 20 ['A', 'b'],
        20 * mA L.meaning ≤ 19 * 20 ∨ ∃ c, L.meaning = [c]) :=
  C2_width_bounds mA 20 ['a', 'b', ' ', 'c'] ['A', 'b'] (by norm_num)

/-- Claim C6: the character fallback drops nothing (the concatenation of its
lines is the input word), emits no empty line, and — for a monotonic
measurer — a character whose width alone exceeds the margin appears as its
own single-character line. -/
theorem C6_fallback_safety (m : List Char → ℤ) (maxWidth : ℤ) (w : List Char)
    (hm : ∀ (x : List Char) (c : Char) (y : List Char), m [c] ≤ m (x ++ c :: y)) :
    ((split_long_word m maxWidth w).map WrappedLine.meaning).flatten = w ∧
      (∀ L ∈ split_long_word m maxWidth w, L.meaning ≠ []) ∧
      (∀ L ∈ split_long_word m maxWidth w, ∀ c ∈ L.meaning,
        19 * maxWidth < 20 * m [c] → L.meaning = [c]) := by
  refine ⟨slw_meanings m maxWidth w, ?_, ?_⟩
  · intro L hL
    rcases List.mem_map.mp hL with ⟨t, ht, rfl⟩
    exact (slw_fit m maxWidth w [] (Or.inl rfl) t ht).1
  · intro L hL c hc hbig
    rcases List.mem_map.mp hL with ⟨t, ht, rfl⟩
    rcases (slw_fit m maxWidth w [] (Or.inl rfl) t ht).2 with hb | ⟨c2, ht2⟩
    · exfalso
      have hct : c ∈ t := hc
      rcases List.append_of_mem hct with ⟨x, y, hxy⟩
      rw [hxy] at hb
      have h1 := hm x c y
      omega
    · have hc2 : c = c2 := by
        have : c ∈ [c2] := by
          rw [← ht2]
          exact hc
        simpa using this
      subst hc2
      exact ht2

/-- Witness: C6 at the concrete monotonic measurer `mA` and word "Ab". -/
theorem C6_w :
    ((split_long_word mA 20 ['A', 'b']).map WrappedLine.meaning).flatten
        = ['A', 'b'] ∧
      (∀ L ∈ split_long_word mA 20 ['A', 'b'], L.meaning ≠ []) ∧
      (∀ L ∈ split_long_word mA 20 ['A', 'b'], ∀ c ∈ L.meaning,
        19 * 20 < 20 * mA [c] → L.meaning = [c]) :=
  C6_fallback_safety mA 20 ['A', 'b'] (fun x c y => mA_mid x c y)

/-! ## One-line compound layout and rendering offsets -/

/-- Claim C3: a compound whose combined width (with the fixed 8px and 12px
gaps) fits the box is laid out as exactly one line holding all three
fragments, and the renderer draws them at `x0`, `x0+Wk+8` and
`x0+Wk+8+Wr+12`. -/
theorem C3_one_line (m : List Char → ℤ) (maxBoxWidth : ℤ) (c : Compound) (x0 : ℤ)
    (hk : c.kanji ≠ []) (hr : c.reading ≠ []) (hg : c.meaning ≠ [])
    (htot : m c.kanji + 8 + m c.reading + 12 + m c.meaning ≤ maxBoxWidth) :
    layoutCompound m maxBoxWidth c = [⟨c.kanji, c.reading, c.meaning⟩] ∧
      renderLine m x0 ⟨c.kanji, c.reading, c.meaning⟩ =
        [⟨x0, c.kanji, FragKind.kanjiPart⟩,
          ⟨x0 + m c.kanji + 8, c.reading, FragKind.readingPart⟩,
          ⟨x0 + m c.kanji + 8 + m c.reading + 12, c.meaning,
            FragKind.meaningPart⟩] := by
  constructor
  · simp only [layoutCompound]
    rw [if_pos htot]
  · simp [renderLine, hk, hr, hg]

/-- Witness: C3 at the concrete measurer `mA` and a small compound. -/
theorem C3_w :
    layoutCompound mA 100 ⟨['k'], ['r'], ['g']⟩ = [⟨['k'], ['r'], ['g']⟩] ∧
      renderLine mA 350 ⟨['k'], ['r'], ['g']⟩ =
        [⟨350, ['k'], FragKind.kanjiPart⟩,
          ⟨350 + mA ['k'] + 8, ['r'], FragKind.readingPart⟩,
          ⟨350 + mA ['k'] + 8 + mA ['r'] + 12, ['g'], FragKind.meaningPart⟩] :=
  C3_one_line mA 100 ⟨['k'], ['r'], ['g']⟩ 350 (by decide) (by decide) (by decide)
    (by decide)

/-- Claim C10: the 8px and 12px gaps are added only when the corresponding
part is nonempty, so a gloss-only continuation line is drawn exactly at the
block's left x-origin with no leading gap. -/
theorem C10_gaps (m : List Char → ℤ) (x0 : ℤ) (L : WrappedLine) :
    (L.kanji = [] → L.reading = [] →
      renderLine m x0 L =
        if L.meaning = [] then [] else [⟨x0, L.meaning, FragKind.meaningPart⟩]) ∧
      (∀ d ∈ renderLine m x0 L, d.kind = FragKind.meaningPart →
        d.x = x0 + (if L.kanji = [] then 0 else m L.kanji + 8) +
          (if L.reading = [] then 0 else m L.reading + 12)) := by
  constructor
  · intro hk hr
    by_cases hg : L.meaning = [] <;> simp [renderLine, hk, hr, hg]
  · intro d hd hkind
    simp only [renderLine] at hd
    rcases List.mem_append.mp hd with h12 | h3
    · rcases List.mem_append.mp h12 with h1 | h2
      · by_cases hk : L.kanji = []
        · rw [if_pos hk] at h1
          simp at h1
        · rw [if_neg hk] at h1
          simp at h1
          rw [h1] at hkind
          simp at hkind
      · by_cases hr : L.reading = []
        · rw [if_pos hr] at h2
          simp at h2
        · rw [if_neg hr] at h2
          simp at h2
          rw [h2] at hkind
          simp at hkind
    · by_cases hg : L.meaning = []
      · rw [if_pos hg] at h3
        simp at h3
      · rw [if_neg hg] at h3
        simp at h3
        subst h3
        by_cases hk : L.kanji = [] <;> by_cases hr : L.reading = [] <;>
          simp [hk, hr] <;> omega

/-- Witness: C10 on a concrete gloss-only line. -/
theorem C10_w :
    renderLine mA 350 ⟨[], [], ['g']⟩ =
      if (['g'] : List Char) = [] then []
      else [⟨350, ['g'], FragKind.meaningPart⟩] :=
  (C10_gaps mA 350 ⟨[], [], ['g']⟩).1 rfl rfl

/-! ## Box height -/

/-- Claim C5, as stated, is false for the empty line list: the code then
uses the fixed minimum height `2·padding + 30 = 60`, which neither matches
the `min(...) + 2·padding` formula nor respects the
`canvasRemainingHeight - fixedBottomMargin` bound when little canvas
remains (here `canvasRemainingHeight = 40`). -/
theorem C5_cex :
    computeBoxHeight [] 40 = 60 ∧
      ¬ (computeBoxHeight [] 40 ≤ 40 - 30) ∧
      computeBoxHeight [] 40 ≠
        min ((([] : List WrappedLine).length : ℤ) * 30) ((40 - 30) - 2 * 15)
          + 2 * 15 :=
  ⟨by decide, by decide, by decide⟩

/-- Claim C5 (amended): for every nonempty line list the box height equals
`min(lineCount × lineSpacing, availableHeight − 2×padding) + 2×padding`
with `availableHeight = canvasRemainingHeight − fixedBottomMargin`, and is
at most `canvasRemainingHeight − fixedBottomMargin`; the empty list instead
gets the fixed minimum height 60, which can exceed that bound. -/
theorem C5_box_height (lines : List WrappedLine) (h : ℤ) (hne : lines ≠ []) :
    computeBoxHeight lines h =
        min ((lines.length : ℤ) * 30) ((h - 30) - 2 * 15) + 2 * 15 ∧
      computeBoxHeight lines h ≤ h - 30 := by
  simp only [computeBoxHeight]
  rw [if_pos hne]
  refine ⟨rfl, ?_⟩
  have h1 := min_le_right ((lines.length : ℤ) * 30) ((h - 30) - 2 * 15)
  omega

/-- Witness: C5 (amended) on a one-line list. -/
theorem C5_box_height_w :
    computeBoxHeight [⟨[], [], ['a']⟩] 500 =
        min ((([⟨[], [], ['a']⟩] : List WrappedLine).length : ℤ) * 30)
          ((500 - 30) - 2 * 15) + 2 * 15 ∧
      computeBoxHeight [⟨[], [], ['a']⟩] 500 ≤ 500 - 30 :=
  C5_box_height [⟨[], [], ['a']⟩] 500 (by decide)

/-- Claim C7: an empty compound list yields zero wrapped lines and the
single empty box of fixed minimum height `2·padding + 30`. -/
theorem C7_empty_box (m : List Char → ℤ) (maxBoxWidth : ℤ) (h : ℤ) :
    layoutCompounds m maxBoxWidth [] = [] ∧
      computeBoxHeight (layoutCompounds m maxBoxWidth []) h = 2 * 15 + 30 :=
  ⟨rfl, rfl⟩

/-! ## The hybrid split -/

theorem sm_nil (m : List Char → ℤ) (maxWidth : ℤ) :
    split_meaning_text m maxWidth [] = [] :=
  rfl

/-- Every line of `_split_meaning_text` is gloss-only. -/
theorem sm_fields (m : List Char → ℤ) (maxWidth : ℤ) (s : List Char) :
    ∀ L ∈ split_meaning_text m maxWidth s, L.kanji = [] ∧ L.reading = [] :=
  fun L hL =>
    ⟨(sm_lineOK m maxWidth s L hL).1, (sm_lineOK m maxWidth s L hL).2.1⟩

/-- Unfolding equation for the cons case of `packFirstLineAux`. -/
theorem packFirstLineAux_cons (m : List Char → ℤ) (remainingWidth : ℤ)
    (acc : List (List Char)) (w : List Char) (rest : List (List Char)) :
    packFirstLineAux m remainingWidth acc (w :: rest) =
      if m (joinWords (acc ++ [w])) ≤ remainingWidth then
        packFirstLineAux m remainingWidth (acc ++ [w]) rest
      else
        (acc, w :: rest) :=
  rfl

/-- The greedy packing loop splits the word list into a maximal fitting
prefix and the remaining words. -/
theorem pack_spec (m : List Char → ℤ) (rwid : ℤ) (ws : List (List Char)) :
    ∀ acc : List (List Char),
      ∃ tk : List (List Char),
        (packFirstLineAux m rwid acc ws).1 = acc ++ tk ∧
        ws = tk ++ (packFirstLineAux m rwid acc ws).2 ∧
        (∀ i < tk.length, m (joinWords (acc ++ tk.take (i + 1))) ≤ rwid) ∧
        (∀ w ws2, (packFirstLineAux m rwid acc ws).2 = w :: ws2 →
          ¬ m (joinWords (acc ++ tk ++ [w])) ≤ rwid) := by
  induction ws with
  | nil =>
    intro acc
    refine ⟨[], by simp [packFirstLineAux], by simp [packFirstLineAux], ?_, ?_⟩
    · intro i hi
      simp at hi
    · intro w ws2 hcon
      simp [packFirstLineAux] at hcon
  | cons w rest ih =>
    intro acc
    by_cases hfit : m (joinWords (acc ++ [w])) ≤ rwid
    · obtain ⟨tk, hfst, hsnd, hfits, hmax⟩ := ih (acc ++ [w])
      refine ⟨w :: tk, ?_, ?_, ?_, ?_⟩
      · rw [packFirstLineAux_cons, if_pos hfit, hfst]
        simp
      · rw [packFirstLineAux_cons, if_pos hfit]
        rw [List.cons_append]
        exact congrArg (w :: ·) hsnd
      · intro i hi
        cases i with
        | zero => simpa using hfit
        | succ j =>
          have hj := hfits j (by simpa using hi)
          have he : (acc ++ [w]) ++ tk.take (j + 1) = acc ++ (w :: tk).take (j + 1 + 1) := by
            simp
          rw [he] at hj
          exact hj
      · intro w2 ws2 hsnd2
        rw [packFirstLineAux_cons, if_pos hfit] at hsnd2
        have hcon := hmax w2 ws2 hsnd2
        have he : (acc ++ [w]) ++ tk ++ [w2] = acc ++ (w :: tk) ++ [w2] := by
          simp
        rw [he] at hcon
        exact hcon
    · refine ⟨[], ?_, ?_, ?_, ?_⟩
      · rw [packFirstLineAux_cons, if_neg hfit]
        simp
      · rw [packFirstLineAux_cons, if_neg hfit]
        rfl
      · intro i hi
        simp at hi
      · intro w2 ws2 hsnd2
        rw [packFirstLineAux_cons, if_neg hfit] at hsnd2
        simp only [Prod.snd] at hsnd2
        have hw2 : w2 = w ∧ ws2 = rest := by
          constructor
          · exact (List.cons.injEq _ _ _ _ ▸ hsnd2 :
              w = w2 ∧ rest = ws2).1.symm
          · exact (List.cons.injEq _ _ _ _ ▸ hsnd2 :
              w = w2 ∧ rest = ws2).2.symm
        rw [hw2.1]
        simpa using hfit

/-- Claim C4: when the compound overflows but the headword+reading prefix
leaves more than 20px, the gloss is split into a greedily-maximal prefix on
the first line (alongside headword and reading; empty if no word fits) and
the leftover words wrapped on subsequent gloss-only lines. -/
theorem C4_hybrid_split (m : List Char → ℤ) (maxBoxWidth : ℤ) (c : Compound)
    (h1 : ¬ (m c.kanji + 8 + m c.reading + 12 + m c.meaning ≤ maxBoxWidth))
    (h2 : m c.kanji + 8 + m c.reading + 12 < maxBoxWidth)
    (h3 : maxBoxWidth - (m c.kanji + 8 + m c.reading + 12) > 20) :
    ∃ tk rest : List (List Char),
      pySplit c.meaning = tk ++ rest ∧
      (∀ i < tk.length,
        m (joinWords (tk.take (i + 1))) ≤
          maxBoxWidth - (m c.kanji + 8 + m c.reading + 12)) ∧
      (∀ w ws2, rest = w :: ws2 →
        ¬ m (joinWords (tk ++ [w])) ≤
          maxBoxWidth - (m c.kanji + 8 + m c.reading + 12)) ∧
      layoutCompound m maxBoxWidth c =
        (if tk = [] then
          ⟨c.kanji, c.reading, []⟩ :: split_meaning_text m maxBoxWidth c.meaning
        else
          ⟨c.kanji, c.reading, joinWords tk⟩ ::
            split_meaning_text m maxBoxWidth (joinWords rest)) ∧
      (∀ L ∈ (layoutCompound m maxBoxWidth c).tail,
        L.kanji = [] ∧ L.reading = []) := by
  obtain ⟨tk, hfst, hsnd, hfits, hmax⟩ :=
    pack_spec m (maxBoxWidth - (m c.kanji + 8 + m c.reading + 12))
      (pySplit c.meaning) []
  have hlay : layoutCompound m maxBoxWidth c =
      (if tk = [] then
        ⟨c.kanji, c.reading, []⟩ :: split_meaning_text m maxBoxWidth c.meaning
      else
        ⟨c.kanji, c.reading, joinWords tk⟩ ::
          split_meaning_text m maxBoxWidth
            (joinWords
              (packFirstLineAux m
                (maxBoxWidth - (m c.kanji + 8 + m c.reading + 12)) []
                (pySplit c.meaning)).2)) := by
    simp only [layoutCompound]
    rw [if_neg h1, if_pos ⟨h2, h3⟩]
    by_cases htk : tk = []
    · rw [if_pos htk]
      subst htk
      simp only [List.append_nil] at hfst
      simp [hfst]
    · rw [if_neg htk]
      simp only [List.nil_append] at hfst
      rw [hfst] at *
      simp only [ne_eq, htk, not_false_iff, if_true]
      by_cases hr2 :
          (packFirstLineAux m
            (maxBoxWidth - (m c.kanji + 8 + m c.reading + 12)) []
            (pySplit c.meaning)).2 = []
      · simp [hr2, sm_nil, joinWords]
      · simp [hr2]
  refine ⟨tk,
    (packFirstLineAux m (maxBoxWidth - (m c.kanji + 8 + m c.reading + 12)) []
      (pySplit c.meaning)).2, hsnd, ?_, ?_, hlay, ?_⟩
  · intro i hi
    simpa using hfits i hi
  · intro w ws2 hw
    have hcon := hmax w ws2 hw
    simpa using hcon
  · intro L hL
    rw [hlay] at hL
    by_cases htk : tk = []
    · rw [if_pos htk] at hL
      simp only [List.tail_cons] at hL
      exact sm_fields m maxBoxWidth c.meaning L hL
    · rw [if_neg htk] at hL
      simp only [List.tail_cons] at hL
      exact sm_fields m maxBoxWidth _ L hL

/-- Witness: C4 at the concrete measurer `mA`, box width 70 and compound
`("k", "r", "ab cd ef")`: the greedy prefix is `["ab"]` and `"cd ef"` wraps
onto a gloss-only line. -/
theorem C4_w :
    ∃ tk rest : List (List Char),
      pySplit ['a', 'b', ' ', 'c', 'd', ' ', 'e', 'f'] = tk ++ rest ∧
      (∀ i < tk.length,
        mA (joinWords (tk.take (i + 1))) ≤
          70 - (mA ['k'] + 8 + mA ['r'] + 12)) ∧
      (∀ w ws2, rest = w :: ws2 →
        ¬ mA (joinWords (tk ++ [w])) ≤
          70 - (mA ['k'] + 8 + mA ['r'] + 12)) ∧
      layoutCompound mA 70 ⟨['k'], ['r'], ['a', 'b', ' ', 'c', 'd', ' ', 'e', 'f']⟩ =
        (if tk = [] then
          ⟨['k'], ['r'], []⟩ ::
            split_meaning_text mA 70 ['a', 'b', ' ', 'c', 'd', ' ', 'e', 'f']
        else
          ⟨['k'], ['r'], joinWords tk⟩ ::
            split_meaning_text mA 70 (joinWords rest)) ∧
      (∀ L ∈ (layoutCompound mA 70
          ⟨['k'], ['r'], ['a', 'b', ' ', 'c', 'd', ' ', 'e', 'f']⟩).tail,
        L.kanji = [] ∧ L.reading = []) :=
  C4_hybrid_split mA 70 ⟨['k'], ['r'], ['a', 'b', ' ', 'c', 'd', ' ', 'e', 'f']⟩
    (by decide) (by decide) (by decide)

/-! ## Idempotence -/

/-- Unfolding equation for the cons case of `pySplitAux`. -/
theorem pySplitAux_cons (cur : List Char) (c : Char) (rest : List Char) :
    pySplitAux cur (c :: rest) =
      if pyIsSpace c then
        (if cur = [] then [] else [cur.reverse]) ++ pySplitAux [] rest
      else pySplitAux (c :: cur) rest :=
  rfl

theorem pySplitAux_nospace (s : List Char) (hs : ∀ c ∈ s, pyIsSpace c = false) :
    ∀ cur : List Char,
      pySplitAux cur s =
        if cur.reverse ++ s = [] then [] else [cur.reverse ++ s] := by
  induction s with
  | nil =>
    intro cur
    by_cases h : cur = [] <;> simp [pySplitAux, h]
  | cons c rest ih =>
    intro cur
    have hc : pyIsSpace c = false := hs c (by simp)
    have hrest : ∀ d ∈ rest, pyIsSpace d = false := fun d hd => hs d (by simp [hd])
    rw [pySplitAux_cons, if_neg (by simp [hc]), ih hrest (c :: cur)]
    simp

theorem pySplitAux_word (w : List Char) (hw : ∀ c ∈ w, pyIsSpace c = false) :
    ∀ (cur : List Char) (t : List Char),
      pySplitAux cur (w ++ ' ' :: t) =
        (if cur.reverse ++ w = [] then [] else [cur.reverse ++ w]) ++
          pySplitAux [] t := by
  induction w with
  | nil =>
    intro cur t
    rw [List.nil_append, pySplitAux_cons, if_pos (by decide)]
    by_cases h : cur = [] <;> simp [h]
  | cons c w2 ih =>
    intro cur t
    have hc : pyIsSpace c = false := hw c (by simp)
    rw [List.cons_append, pySplitAux_cons, if_neg (by simp [hc]),
      ih (fun d hd => hw d (by simp [hd])) (c :: cur) t]
    simp

theorem pySplit_single (w : List Char) (hgw : goodWord w) : pySplit w = [w] := by
  rw [pySplit, pySplitAux_nospace w hgw.2 []]
  simp [hgw.1]

/-- Splitting the single-space join of good words returns the words. -/
theorem pySplit_joinWords (ws : List (List Char)) (h : ∀ w ∈ ws, goodWord w) :
    pySplit (joinWords ws) = ws := by
  induction ws with
  | nil => rfl
  | cons w rest ih =>
    cases rest with
    | nil => exact pySplit_single w (h w (by simp))
    | cons w2 rest2 =>
      rw [joinWords_cons _ _ (by simp), pySplit,
        pySplitAux_word w (h w (by simp)).2 [] (joinWords (w2 :: rest2))]
      rw [show pySplitAux [] (joinWords (w2 :: rest2))
          = pySplit (joinWords (w2 :: rest2)) from rfl]
      rw [ih (fun u hu => h u (by simp [hu]))]
      simp [(h w (by simp)).1]

/-- If every nonempty word-list prefix joins within the limit, the
accumulator keeps absorbing words and a single line comes out. -/
theorem smAux_allfit (m : List Char → ℤ) (maxWidth : ℤ) (ws : List (List Char)) :
    ∀ cur : List (List Char), cur ++ ws ≠ [] →
      (∀ pre : List (List Char), pre ≠ [] → pre <+: cur ++ ws →
        m (joinWords pre) ≤ maxWidth) →
      splitMeaningAux m maxWidth cur ws = [⟨[], [], joinWords (cur ++ ws)⟩] := by
  induction ws with
  | nil =>
    intro cur hne hfits
    have hc : cur ≠ [] := by simpa using hne
    simp [splitMeaningAux, hc]
  | cons w rest ih =>
    intro cur hne hfits
    have hfit : m (if cur = [] then w else joinWords (cur ++ [w])) ≤ maxWidth := by
      rw [test_eq]
      refine hfits (cur ++ [w]) (by simp) ?_
      exact ⟨rest, by simp⟩
    rw [splitMeaningAux_cons, if_pos hfit]
    have harg : ∀ pre : List (List Char), pre ≠ [] → pre <+: (cur ++ [w]) ++ rest →
        m (joinWords pre) ≤ maxWidth := by
      intro pre hpre hpref
      refine hfits pre hpre ?_
      have he : (cur ++ [w]) ++ rest = cur ++ w :: rest := by simp
      rwa [he] at hpref
    rw [ih (cur ++ [w]) (by simp) harg]
    have he2 : (cur ++ [w]) ++ rest = cur ++ w :: rest := by simp
    rw [he2]

/-- Claim C9: with a prefix-monotonic measurer and nonnegative maxWidth,
re-wrapping the text of any produced line reproduces exactly that line. -/
theorem C9_idempotent (m : List Char → ℤ) (maxWidth : ℤ) (s : List Char)
    (L : WrappedLine)
    (hm : ∀ l1 l2 : List Char, l1 <+: l2 → m l1 ≤ m l2)
    (h0 : 0 ≤ maxWidth)
    (hL : L ∈ split_meaning_text m maxWidth s) :
    split_meaning_text m maxWidth L.meaning = [L] := by
  obtain ⟨hk, hr, hshape⟩ := sm_lineOK m maxWidth s L hL
  have hLeq : L = ⟨[], [], L.meaning⟩ := by
    cases L with
    | mk k r g =>
      simp only [WrappedLine.mk.injEq]
      exact ⟨hk, hr, trivial⟩
  rcases hshape with ⟨ws, hne, hgood, hjoin, hfit⟩ | ⟨⟨hne, hns⟩, hbound⟩
  · rw [split_meaning_text, hjoin, pySplit_joinWords ws hgood]
    rw [hjoin] at hfit
    have hall : ∀ pre : List (List Char), pre ≠ [] → pre <+: [] ++ ws →
        m (joinWords pre) ≤ maxWidth := by
      intro pre hpre hpref
      rw [List.nil_append] at hpref
      obtain ⟨suf, hsuf⟩ := hpref
      have hmono : m (joinWords pre) ≤ m (joinWords ws) := by
        rw [← hsuf]
        exact hm _ _ (joinWords_pref pre suf hpre)
      exact le_trans hmono hfit
    rw [smAux_allfit m maxWidth ws [] (by simpa using hne) hall]
    rw [List.nil_append, ← hjoin]
    exact congrArg (fun x => [x]) hLeq.symm
  · by_cases hfits : m L.meaning ≤ maxWidth
    · rw [split_meaning_text, pySplit_single L.meaning ⟨hne, hns⟩]
      rw [splitMeaningAux_cons, if_pos (by simpa using hfits)]
      rw [show ([] : List (List Char)) ++ [L.meaning] = [L.meaning] from rfl]
      have hout : splitMeaningAux m maxWidth [L.meaning] [] =
          [⟨[], [], joinWords [L.meaning]⟩] := by
        simp [splitMeaningAux]
      rw [hout]
      rw [show joinWords [L.meaning] = L.meaning from rfl]
      exact congrArg (fun x => [x]) hLeq.symm
    · have hsing : ∃ c, L.meaning = [c] := by
        rcases hbound with hb | hs
        · exfalso
          omega
        · exact hs
      obtain ⟨ch, hch⟩ := hsing
      rw [split_meaning_text, pySplit_single L.meaning ⟨hne, hns⟩]
      rw [splitMeaningAux_cons]
      rw [show (if ([] : List (List Char)) = [] then L.meaning
          else joinWords ([] ++ [L.meaning])) = L.meaning from rfl]
      rw [if_neg hfits, if_neg hfits]
      have hbig : ¬ (20 * m ([] ++ [ch]) ≤ 19 * maxWidth) := by
        have hgt : ¬ m [ch] ≤ maxWidth := by
          rw [← hch]
          exact hfits
        simp only [List.nil_append]
        omega
      have hslw : split_long_word m maxWidth L.meaning = [⟨[], [], [ch]⟩] := by
        rw [hch, split_long_word, splitLongWordAux_cons, if_neg hbig]
        simp [splitLongWordAux]
      rw [hslw]
      rw [show splitMeaningAux m maxWidth [] ([] : List (List Char)) = [] from rfl]
      rw [show (if ([] : List (List Char)) = [] then ([] : List WrappedLine)
          else [⟨[], [], joinWords []⟩]) = [] from rfl]
      simp only [List.nil_append, List.append_nil]
      rw [← hch]
      exact congrArg (fun x => [x]) hLeq.symm

/-- Witness: C9 at the concrete monotonic measurer `mA`: the second line
produced for "ab cd" at width 25 re-wraps to itself. -/
theorem C9_w :
    split_meaning_text mA 25
        (⟨[], [], ['c', 'd']⟩ : WrappedLine).meaning = [⟨[], [], ['c', 'd']⟩] :=
  C9_idempotent mA 25 ['a', 'b', ' ', 'c', 'd'] ⟨[], [], ['c', 'd']⟩
    mA_prefix_mono (by norm_num) (by decide)

/-! ## Error flow: the fallible pipeline agrees with the pure one when the
measurer is total, and propagates measurement failures uncaught -/

theorem slwAuxE_pure (mw : List Char → ℤ) (maxWidth : ℤ) (w : List Char) :
    ∀ cur : List Char,
      splitLongWordAuxE (pureM mw) maxWidth cur w
        = Except.ok (splitLongWordAux mw maxWidth cur w) := by
  induction w with
  | nil => intro cur; rfl
  | cons c rest ih =>
    intro cur
    by_cases hfit : 20 * mw (cur ++ [c]) ≤ 19 * maxWidth <;>
      simp [splitLongWordAuxE, splitLongWordAux_cons, pureM, hfit, ih]

theorem slwE_pure (mw : List Char → ℤ) (maxWidth : ℤ) (w : List Char) :
    split_long_wordE (pureM mw) maxWidth w
      = Except.ok (split_long_word mw maxWidth w) := by
  simp [split_long_wordE, split_long_word, slwAuxE_pure]

theorem smAuxE_pure (mw : List Char → ℤ) (maxWidth : ℤ) (ws : List (List Char)) :
    ∀ cur : List (List Char),
      splitMeaningAuxE (pureM mw) maxWidth cur ws
        = Except.ok (splitMeaningAux mw maxWidth cur ws) := by
  induction ws with
  | nil => intro cur; rfl
  | cons w rest ih =>
    intro cur
    by_cases h1 : mw (if cur = [] then w else joinWords (cur ++ [w])) ≤ maxWidth
    · simp [splitMeaningAuxE, splitMeaningAux_cons, pureM, h1, ih]
    · by_cases h2 : mw w ≤ maxWidth <;>
        simp [splitMeaningAuxE, splitMeaningAux_cons, pureM, h1, h2, ih, slwE_pure]

theorem smTextE_pure (mw : List Char → ℤ) (maxWidth : ℤ) (s : List Char) :
    split_meaning_textE (pureM mw) maxWidth s
      = Except.ok (split_meaning_text mw maxWidth s) := by
  simp [split_meaning_textE, split_meaning_text, smAuxE_pure]

theorem packE_pure (mw : List Char → ℤ) (remainingWidth : ℤ)
    (ws : List (List Char)) :
    ∀ acc : List (List Char),
      packFirstLineAuxE (pureM mw) remainingWidth acc ws
        = Except.ok (packFirstLineAux mw remainingWidth acc ws) := by
  induction ws with
  | nil => intro acc; rfl
  | cons w rest ih =>
    intro acc
    by_cases hfit : mw (joinWords (acc ++ [w])) ≤ remainingWidth <;>
      simp [packFirstLineAuxE, packFirstLineAux_cons, pureM, hfit, ih]

theorem layoutCompoundE_pure (mw : List Char → ℤ) (maxBoxWidth : ℤ)
    (c : Compound) :
    layoutCompoundE (pureM mw) maxBoxWidth c
      = Except.ok (layoutCompound mw maxBoxWidth c) := by
  by_cases h1 : mw c.kanji + 8 + mw c.reading + 12 + mw c.meaning ≤ maxBoxWidth
  · simp [layoutCompoundE, layoutCompound, pureM, h1]
  · by_cases h2 : mw c.kanji + 8 + mw c.reading + 12 < maxBoxWidth ∧
        maxBoxWidth - (mw c.kanji + 8 + mw c.reading + 12) > 20
    · by_cases h3 :
          (packFirstLineAux mw
            (maxBoxWidth - (mw c.kanji + 8 + mw c.reading + 12)) []
            (pySplit c.meaning)).1 = []
      · simp [layoutCompoundE, layoutCompound, pureM, h1, h2, h3, packE_pure,
          smTextE_pure]
      · by_cases h4 :
            (packFirstLineAux mw
              (maxBoxWidth - (mw c.kanji + 8 + mw c.reading + 12)) []
              (pySplit c.meaning)).2 = []
        · simp [layoutCompoundE, layoutCompound, pureM, h1, h2, h3, h4,
            packE_pure, smTextE_pure]
        · simp [layoutCompoundE, layoutCompound, pureM, h1, h2, h3, h4,
            packE_pure, smTextE_pure]
    · simp [layoutCompoundE, layoutCompound, pureM, h1, h2, packE_pure,
        smTextE_pure]

theorem layoutCompoundsE_pure (mw : List Char → ℤ) (maxBoxWidth : ℤ)
    (cs : List Compound) :
    layoutCompoundsE (pureM mw) maxBoxWidth cs
      = Except.ok (layoutCompounds mw maxBoxWidth cs) := by
  induction cs with
  | nil => rfl
  | cons c rest ih =>
    simp [layoutCompoundsE, layoutCompounds, layoutCompoundE_pure, ih]

theorem renderLineE_pure (mw : List Char → ℤ) (x0 : ℤ) (L : WrappedLine) :
    renderLineE (pureM mw) x0 L = Except.ok (renderLine mw x0 L) := by
  by_cases hk : L.kanji = [] <;> by_cases hr : L.reading = [] <;>
    simp [renderLineE, renderLine, pureM, hk, hr]

theorem renderLinesE_pure (mw : List Char → ℤ) (x0 boxY1 : ℤ)
    (lines : List WrappedLine) :
    ∀ y : ℤ,
      renderLinesE (pureM mw) x0 boxY1 lines y
        = Except.ok (renderLines mw x0 boxY1 lines y) := by
  induction lines with
  | nil => intro y; rfl
  | cons L rest ih =>
    intro y
    by_cases hy : y + 30 > boxY1 - 15 <;>
      simp [renderLinesE, renderLines, renderLineE_pure, hy, ih]

/-- With a total measurer the per-entry generator never raises: it returns
`false` for an invalid entry or a failed save (caught), `true` otherwise. -/
theorem createE_pure (mw : List Char → ℤ) (save : Except Unit Unit) (e : Entry) :
    createKanjiImageE (pureM mw) save e =
      if e.kanji = [] then Except.ok false
      else
        Except.ok
          (match save with
            | Except.ok _ => true
            | Except.error _ => false) := by
  by_cases he : e.kanji = []
  · simp [createKanjiImageE, he]
  · by_cases hjis : e.jis = [] <;> cases save <;>
      simp [createKanjiImageE, he, hjis, pureM, layoutCompoundsE_pure,
        renderLinesE_pure]

/-- Claim C8, as stated, is false: a measurement failure is not caught — the
`try/except` guards only `image.save` — so the raised exception escapes
`create_kanji_image` and the batch loop of `main`, which has no handler. -/
theorem C8_cex :
    runBatchE mFail (Except.ok ()) [sampleEntry] = Except.error () := by
  rfl

/-- Claim C8 (amended): invalid entries and save failures are handled
locally (the entry is counted as a failure and the batch continues), but a
measurement/render failure propagates uncaught out of the batch loop. -/
theorem C8_error_flow :
    (∀ (mw : List Char → ℤ) (save : Except Unit Unit) (e : Entry),
      e.kanji = [] → createKanjiImageE (pureM mw) save e = Except.ok false) ∧
      (∀ (mw : List Char → ℤ) (e : Entry), e.kanji ≠ [] →
        createKanjiImageE (pureM mw) (Except.error ()) e = Except.ok false) ∧
      runBatchE mFail (Except.ok ()) [sampleEntry] = Except.error () := by
  refine ⟨?_, ?_, rfl⟩
  · intro mw save e he
    rw [createE_pure, if_pos he]
  · intro mw e he
    rw [createE_pure, if_neg he]

/-- Witness: C8 (amended) at concrete inputs: an entry with empty kanji is
skipped with `false`; a save failure on a valid entry is caught and yields
`false`. -/
theorem C8_error_flow_w :
    createKanjiImageE (pureM mA) (Except.ok ()) ⟨[], [], [], [], [], []⟩
        = Except.ok false ∧
      createKanjiImageE (pureM mA) (Except.error ()) sampleEntry
        = Except.ok false :=
  ⟨C8_error_flow.1 mA (Except.ok ()) ⟨[], [], [], [], [], []⟩ rfl,
    C8_error_flow.2.1 mA sampleEntry (by decide)⟩

end KanjiGen
